import Mathlib

/-!
A shallow embedding of the GoPro Plus cloud downloader (`main.py`) and a
verification of its specification.

The embedding models the synchronization engine:

* the TinyDB ledger (`insert_ids_by_date`, `get_ids_by_date`, `search_id`)
  as an association list from capture-day to the stored identifier list;
* the cohort builder inside `download_by_date` (field projection, capture-day
  truncation `captured_at.split('T')[0]`, the stable `sorted` + `groupby`
  grouping);
* the reconciliation decision `len(db_ids) == 0 or len(db_ids) != len(items)`;
* the archive fetcher `download_media` (HTTP status check, streamed file
  write, ledger merge after the write), with the archive endpoint abstracted
  as an oracle from the requested identifier list to an HTTP status;
* the target-path generator `get_zip_filename` over a list of existing files;
* the pagination driver `main` with the listing endpoint abstracted as an
  oracle from (page, per_page) to a response.

Side effects are made explicit: file writes, archive requests, ledger merges
and console reports become values of the event type `Ev` (respectively the
message type `Msg`), produced in program order.
-/

set_option maxHeartbeats 1000000

/-- One remote media item, restricted to the fields that
`download_by_date` projects out (`needed_fields` in the source); the real
listing payload carries more fields, which the engine never reads. -/
structure RawItem where
  captured_at : String
  filename : String
  file_extension : String
  file_size : Nat
  id : String
  type : String
  deriving DecidableEq, Repr

/-- The projected record built for each item by `download_by_date`:
the needed fields plus the derived `captured_day`. -/
structure NeededItem where
  captured_at : String
  filename : String
  file_extension : String
  file_size : Nat
  id : String
  type : String
  captured_day : String
  deriving DecidableEq, Repr

/-- Models `captured_at.split('T')[0]`: the longest prefix of the
timestamp before the first `'T'` (the whole string if no `'T'` occurs). -/
def captureDay (s : String) : String :=
  String.mk (s.data.takeWhile (fun c => c ≠ 'T'))

/-- Models the `item_data` construction in `download_by_date`: project the
needed fields and add `captured_day`. -/
def toNeeded (it : RawItem) : NeededItem :=
  { captured_at := it.captured_at
    filename := it.filename
    file_extension := it.file_extension
    file_size := it.file_size
    id := it.id
    type := it.type
    captured_day := captureDay it.captured_at }

/-- Models the `needed_data` list of `download_by_date`. -/
def build_needed (media : List RawItem) : List NeededItem :=
  media.map toNeeded

/-- Insert one item into a day-sorted list, before the first element whose
day is not smaller — together with `sortByDay` this is the unique stable
sort by `captured_day` and hence models Python's stable
`sorted(needed_data, key=itemgetter('captured_day'))`. -/
def insertByDay (x : NeededItem) : List NeededItem → List NeededItem
  | [] => [x]
  | y :: ys =>
      if y.captured_day.data < x.captured_day.data then y :: insertByDay x ys
      else x :: y :: ys

/-- Stable sort by `captured_day` (models `needed_data_sorted`). -/
def sortByDay : List NeededItem → List NeededItem
  | [] => []
  | x :: xs => insertByDay x (sortByDay xs)

/-- A cohort: a capture-day together with that day's ordered items. -/
abbrev Cohort := String × List NeededItem

/-- Group consecutive items sharing a `captured_day` into runs; applied to
the sorted list this models `itertools.groupby` plus the dict
comprehension building `grouped_data` (insertion order preserved). -/
def groupRuns : List NeededItem → List Cohort
  | [] => []
  | x :: xs =>
      match groupRuns xs with
      | [] => [(x.captured_day, [x])]
      | (k, g) :: rest =>
          if x.captured_day = k then (k, x :: g) :: rest
          else (x.captured_day, [x]) :: (k, g) :: rest

/-- The `grouped_data` mapping of `download_by_date`, as an ordered list of
cohorts. -/
def grouped_data (media : List RawItem) : List Cohort :=
  groupRuns (sortByDay (build_needed media))

/-- The TinyDB ledger `gopro_media_db.json`: a list of records
`[date, ids]` in insertion order. -/
abbrev Ledger := List (String × List String)

/-- Models `get_ids_by_date`: the ids of the first record for the day, or
the empty list when no record exists. -/
def get_ids_by_date (db : Ledger) (captured_at : String) : List String :=
  match db.find? (fun r => r.1 == captured_at) with
  | some r => r.2
  | none => []

/-- Models `insert_ids_by_date`: when a record for the day exists, every
record for that day is updated to `list(set(current_ids + ids_list))`
(an order-unspecified duplicate-free enumeration of the union, modelled by
`List.dedup` of the concatenation); otherwise a fresh record holding
`ids_list` as given is appended. -/
def insert_ids_by_date (db : Ledger) (captured_at : String)
    (ids_list : List String) : Ledger :=
  match db.find? (fun r => r.1 == captured_at) with
  | some r =>
      let new_ids := (r.2 ++ ids_list).dedup
      db.map (fun q => if q.1 = captured_at then (q.1, new_ids) else q)
  | none => db ++ [(captured_at, ids_list)]

/-- Models `search_id`: whether any record's identifier list contains the
given identifier. -/
def search_id (db : Ledger) (media_id : String) : Bool :=
  db.any (fun r => r.2.contains media_id)

/-- Decimal digits of a natural number (most significant first), with a
structural fuel argument so that the definition computes by reduction; any
fuel at least `n` gives the exact decimal representation. -/
def decDigits : Nat → Nat → List Char
  | 0, n => [Nat.digitChar (n % 10)]
  | fuel + 1, n =>
      if n < 10 then [Nat.digitChar n]
      else decDigits fuel (n / 10) ++ [Nat.digitChar (n % 10)]

/-- Decimal rendering of a natural number, as produced by the f-string
interpolation of `counter` in `get_zip_filename`. -/
def decRepr (n : Nat) : String :=
  String.mk (decDigits n n)

/-- The candidate archive path for a day and counter, modelling
`os.path.flatten(download_dir, f"...")` with `download_dir = 'downloads'`. -/
def zipName (day : String) (counter : Nat) : String :=
  "downloads/" ++ day ++ "_" ++ decRepr counter ++ "_GoPro.zip"

/-- The `while os.path.exists(filename)` search of `get_zip_filename`,
with the existing files given as a list and a fuel bound (the loop needs at
most `files.length + 1` probes to find a free name). -/
def findName (files : List String) (day : String) : Nat → Nat → String
  | 0, counter => zipName day counter
  | fuel + 1, counter =>
      if zipName day counter ∈ files then findName files day fuel (counter + 1)
      else zipName day counter

/-- Models `get_zip_filename`: starting from counter 1, increment until the
candidate path does not name an existing file. -/
def get_zip_filename (files : List String) (day : String) : String :=
  findName files day (files.length + 1) 1

/-- The mutable state the engine threads through a run: the ledger database
and the set of existing files in the downloads directory. -/
structure EngineState where
  db : Ledger
  files : List String
  deriving DecidableEq, Repr

/-- Observable side effects of the engine, in program order:
`fetchReq day ids` — the archive GET for the listed identifiers;
`fileWrite name` — the streamed write of the response body to `name`
completing; `ledgerMerge day ids` — the `insert_ids_by_date` call;
`fetchFail day status` — the non-200 report of `download_media`;
`skip day name` — the "already downloaded" report of `download_by_date`. -/
inductive Ev where
  | fetchReq (day : String) (ids : List String)
  | fileWrite (name : String)
  | ledgerMerge (day : String) (ids : List String)
  | fetchFail (day : String) (status : Nat)
  | skip (day : String) (name : String)
  deriving DecidableEq, Repr

/-- Models `download_media`. The archive endpoint is abstracted by `arch`,
mapping the requested identifier list to the HTTP status of its response.
On status 200 the body is streamed to `zip_name` (so the file now exists)
and only then is the ledger merged with the cohort's identifiers, keyed by
`data[0]['captured_day']`; on any other status the state is unchanged and a
failure report is emitted. -/
def download_media (arch : List String → Nat) (st : EngineState)
    (zip_name : String) (data : List NeededItem) : EngineState × List Ev :=
  let media_ids := data.map (fun i => i.id)
  let day := (data.head?.map (fun i => i.captured_day)).getD ""
  let status := arch media_ids
  if status = 200 then
    ({ db := insert_ids_by_date st.db day media_ids
       files := zip_name :: st.files },
     [Ev.fetchReq day media_ids, Ev.fileWrite zip_name,
      Ev.ledgerMerge day media_ids])
  else
    (st, [Ev.fetchReq day media_ids, Ev.fetchFail day status])

/-- One iteration of the cohort loop of `download_by_date`: generate the
target path, read the ledger, and apply the reconciliation rule
`len(db_ids) == 0 or len(db_ids) != len(items)`. -/
def processCohort (arch : List String → Nat) (st : EngineState)
    (c : Cohort) : EngineState × List Ev :=
  let zip_name := get_zip_filename st.files c.1
  let db_ids := get_ids_by_date st.db c.1
  if db_ids.length = 0 ∨ db_ids.length ≠ c.2.length then
    download_media arch st zip_name c.2
  else
    (st, [Ev.skip c.1 zip_name])

/-- The cohort loop of `download_by_date`, over the grouped cohorts in
order. -/
def processCohorts (arch : List String → Nat) :
    EngineState → List Cohort → EngineState × List Ev
  | st, [] => (st, [])
  | st, c :: cs =>
      let out := processCohort arch st c
      let rest := processCohorts arch out.1 cs
      (rest.1, out.2 ++ rest.2)

/-- Models `download_by_date` on one page of listing results. -/
def download_by_date (arch : List String → Nat) (st : EngineState)
    (media : List RawItem) : EngineState × List Ev :=
  processCohorts arch st (grouped_data media)

/-- The engine run over a sequence of listing pages: each page is fed to
`download_by_date` in order, threading the state. -/
def run_pages (arch : List String → Nat) :
    EngineState → List (List RawItem) → EngineState × List Ev
  | st, [] => (st, [])
  | st, m :: ms =>
      let out := download_by_date arch st m
      let rest := run_pages arch out.1 ms
      (rest.1, out.2 ++ rest.2)

/-- The payload of a 200 listing response: the `_embedded.media` page and
the `_pages.total_pages` metadata. -/
structure Page where
  media : List RawItem
  total_pages : Nat
  deriving DecidableEq, Repr

/-- A raw listing response: HTTP status, response text, and the parsed
JSON payload (meaningful only when the status is 200). -/
structure ListingResp where
  status : Nat
  text : String
  body : Page
  deriving DecidableEq, Repr

/-- Console reports of `search_media` and `main`:
`authFailed text` — the 401 report ("Failed to authenticate ..." plus the
response body); `httpFailed status text` — the other non-200 report
("Response failed with status code ..." plus the body); `noMedia` — the
"No media was found" report of `main`. -/
inductive Msg where
  | authFailed (text : String)
  | httpFailed (status : Nat) (text : String)
  | noMedia
  deriving DecidableEq, Repr

/-- Models `search_media` applied to the response of the listing endpoint:
`none` plus an error report on 401 and other non-200 statuses, the parsed
payload on 200. -/
def search_media (resp : ListingResp) : Option Page × List Msg :=
  if resp.status = 401 then (none, [Msg.authFailed resp.text])
  else if resp.status = 200 then (some resp.body, [])
  else (none, [Msg.httpFailed resp.status resp.text])

/-- The accumulated observables of a `main` run: the listing requests
issued as (page, per_page) pairs, the console reports, the final engine
state, and the engine event trace. -/
structure MainOut where
  requests : List (Nat × Nat)
  msgs : List Msg
  st : EngineState
  trace : List Ev
  deriving DecidableEq, Repr

/-- The `for page in range(2, total_pages)` loop of `main`, over the
remaining page numbers. Each iteration calls `search_media` with the
default page size 30 (the source omits `per_page` here); a failed call
reports "No media was found" and returns early. -/
def page_loop (listing : Nat → Nat → ListingResp)
    (arch : List String → Nat) :
    List Nat → EngineState → MainOut
  | [], st => { requests := [], msgs := [], st := st, trace := [] }
  | p :: ps, st =>
      let resp := listing p 30
      match search_media resp with
      | (none, ms) =>
          { requests := [(p, 30)], msgs := ms ++ [Msg.noMedia],
            st := st, trace := [] }
      | (some pg, ms) =>
          let out := download_by_date arch st pg.media
          let rest := page_loop listing arch ps out.1
          { requests := (p, 30) :: rest.requests, msgs := ms ++ rest.msgs,
            st := rest.st, trace := out.2 ++ rest.trace }

/-- Models `main`: the first listing call with the configured `per_page`
(page defaults to 1), the `if not data` check, the first
`download_by_date`, then the page loop over `range(2, total_pages)` with
`total_pages` read once from the first response. -/
def main_model (listing : Nat → Nat → ListingResp)
    (arch : List String → Nat) (per_page : Nat) (st0 : EngineState) :
    MainOut :=
  let resp := listing 1 per_page
  match search_media resp with
  | (none, ms) =>
      { requests := [(1, per_page)], msgs := ms ++ [Msg.noMedia],
        st := st0, trace := [] }
  | (some pg, ms) =>
      let out := download_by_date arch st0 pg.media
      let rest := page_loop listing arch
        (List.range' 2 (pg.total_pages - 2)) out.1
      { requests := (1, per_page) :: rest.requests, msgs := ms ++ rest.msgs,
        st := rest.st, trace := out.2 ++ rest.trace }

/-- The days for which a cohort received a reconciliation outcome in a
trace: a successful merge, a failed fetch, or a skip. -/
def decidedDays : List Ev → List String
  | [] => []
  | Ev.ledgerMerge d _ :: es => d :: decidedDays es
  | Ev.fetchFail d _ :: es => d :: decidedDays es
  | Ev.skip d _ :: es => d :: decidedDays es
  | _ :: es => decidedDays es

/-- The days of the archive requests issued in a trace. -/
def fetchReqDays : List Ev → List String
  | [] => []
  | Ev.fetchReq d _ :: es => d :: fetchReqDays es
  | _ :: es => fetchReqDays es

/-- A sample remote item used by concrete witnesses and counterexamples. -/
def sampleA : RawItem :=
  { captured_at := "2024-01-05T10:00:00Z", filename := "a.JPG",
    file_extension := "JPG", file_size := 7, id := "a", type := "Photo" }

/-- A second sample item on the same capture-day as `sampleA`. -/
def sampleB : RawItem :=
  { captured_at := "2024-01-05T11:00:00Z", filename := "b.MP4",
    file_extension := "MP4", file_size := 9, id := "b", type := "Video" }

/-- A third sample item on the same capture-day as `sampleA`. -/
def sampleC : RawItem :=
  { captured_at := "2024-01-05T12:00:00Z", filename := "c.JPG",
    file_extension := "JPG", file_size := 3, id := "c", type := "Photo" }

/-- A sample item on a different capture-day (2024-01-06). -/
def sampleD : RawItem :=
  { captured_at := "2024-01-06T09:00:00Z", filename := "d.JPG",
    file_extension := "JPG", file_size := 5, id := "d", type := "Photo" }

/-- An archive endpoint oracle on which every fetch succeeds. -/
def archAll200 : List String → Nat := fun _ => 200

/-- An archive endpoint oracle on which every fetch fails with HTTP 503. -/
def archAll503 : List String → Nat := fun _ => 503

/-- A listing oracle reporting three total pages, every call succeeding;
page 1 carries `sampleA`, later pages carry `sampleB` and `sampleC`, all on
the same capture-day. -/
def listingSameDay : Nat → Nat → ListingResp := fun p _ =>
  if p = 1 then
    { status := 200, text := "", body := { media := [sampleA], total_pages := 3 } }
  else
    { status := 200, text := "", body := { media := [sampleB, sampleC], total_pages := 3 } }

/-- A listing oracle answering every request with HTTP 200, an empty media
list and one total page: a 200 listing response with an empty result set. -/
def listingEmpty200 : Nat → Nat → ListingResp := fun _ _ =>
  { status := 200, text := "", body := { media := [], total_pages := 1 } }

/-- A listing oracle reporting three total pages with empty media lists,
used to observe which (page, per_page) requests `main` issues. -/
def listingThreePages : Nat → Nat → ListingResp := fun _ _ =>
  { status := 200, text := "", body := { media := [], total_pages := 3 } }

/-! ### Ledger lemmas -/

theorem string_data_eq {s t : String} (h : s.data = t.data) : s = t := by
  cases s
  cases t
  exact congrArg String.mk h

theorem ledger_find?_map (db : Ledger) (day : String)
    (f : String × List String → String × List String)
    (hf : ∀ q, (f q).1 = q.1) :
    (db.map f).find? (fun r => r.1 == day)
      = (db.find? (fun r => r.1 == day)).map f := by
  have hp : ((fun r : String × List String => r.1 == day) ∘ f)
      = (fun r : String × List String => r.1 == day) := by
    funext q
    simp [Function.comp, hf]
  rw [List.find?_map, hp]

theorem find?_key_eq {db : Ledger} {day : String} {r : String × List String}
    (h : db.find? (fun q => q.1 == day) = some r) : r.1 = day := by
  have := List.find?_some h
  simpa [beq_iff_eq] using this

/-- Closed form for a ledger read after a merge on the same day. -/
theorem get_insert_self (db : Ledger) (day : String) (ids : List String) :
    get_ids_by_date (insert_ids_by_date db day ids) day
      = match db.find? (fun r => r.1 == day) with
        | some r => (r.2 ++ ids).dedup
        | none => ids := by
  cases h : db.find? (fun r => r.1 == day) with
  | none =>
      simp only [insert_ids_by_date, h, get_ids_by_date]
      rw [List.find?_append, h]
      simp
  | some r =>
      have hr : r.1 = day := find?_key_eq h
      simp only [insert_ids_by_date, h, get_ids_by_date]
      rw [ledger_find?_map db day _ (fun q => by by_cases hq : q.1 = day <;> simp [hq])]
      rw [h]
      simp [hr]

/-- A merge for one day leaves reads of every other day unchanged. -/
theorem get_insert_other (db : Ledger) (day : String) (ids : List String)
    (d : String) (hd : d ≠ day) :
    get_ids_by_date (insert_ids_by_date db day ids) d = get_ids_by_date db d := by
  cases h : db.find? (fun r => r.1 == day) with
  | none =>
      simp only [insert_ids_by_date, h, get_ids_by_date]
      rw [List.find?_append]
      have hne : (day == d) = false := beq_eq_false_iff_ne.mpr fun e => hd e.symm
      have : List.find? (fun r => r.1 == d) [(day, ids)] = none := by
        simp [List.find?, hne]
      rw [this, Option.or_none]
  | some r =>
      simp only [insert_ids_by_date, h, get_ids_by_date]
      rw [ledger_find?_map db d _ (fun q => by by_cases hq : q.1 = day <;> simp [hq])]
      cases hq : db.find? (fun r => r.1 == d) with
      | none => rfl
      | some q =>
          have : q.1 = d := find?_key_eq hq
          simp [this, hd]

theorem dedup_append_toFinset (a b : List String) :
    ((a ++ b).dedup).toFinset = a.toFinset ∪ b.toFinset := by
  ext x
  simp [List.mem_dedup]

/-- C4, part 1: the ledger entry after a merge holds exactly the union. -/
theorem get_insert_toFinset (db : Ledger) (day : String) (ids : List String) :
    (get_ids_by_date (insert_ids_by_date db day ids) day).toFinset
      = (get_ids_by_date db day).toFinset ∪ ids.toFinset := by
  rw [get_insert_self]
  cases h : db.find? (fun r => r.1 == day) with
  | none => simp [get_ids_by_date, h]
  | some r => simp [get_ids_by_date, h, dedup_append_toFinset]

theorem exists_entry_find?_some {db : Ledger} {day : String}
    (h : ∃ r ∈ db, r.1 = day) :
    ∃ r, db.find? (fun q => q.1 == day) = some r := by
  rcases h with ⟨r, hr, hd⟩
  cases hf : db.find? (fun q => q.1 == day) with
  | none =>
      exfalso
      have := List.find?_eq_none.mp hf r hr
      simp [hd] at this
  | some q => exact ⟨q, rfl⟩

/-- C4: merging identifiers into the ledger is a set union: the entry for
the day afterwards holds exactly the old identifiers united with the merged
ones; when an entry already existed the updated entry is duplicate-free;
when none existed a fresh record for the day is appended. -/
theorem insert_ids_by_date_union (db : Ledger) (day : String) (ids : List String) :
    (get_ids_by_date (insert_ids_by_date db day ids) day).toFinset
        = (get_ids_by_date db day).toFinset ∪ ids.toFinset
    ∧ ((∃ r ∈ db, r.1 = day) →
        (get_ids_by_date (insert_ids_by_date db day ids) day).Nodup)
    ∧ (db.find? (fun r => r.1 == day) = none →
        insert_ids_by_date db day ids = db ++ [(day, ids)]) := by
  refine ⟨get_insert_toFinset db day ids, ?_, ?_⟩
  · intro h
    obtain ⟨r, hr⟩ := exists_entry_find?_some h
    rw [get_insert_self, hr]
    exact List.nodup_dedup _
  · intro h
    simp [insert_ids_by_date, h]

/-- Witness for C4 at the spec's concrete instance: an entry `{a, b}`
merged with `{b, c}` yields exactly `{a, b, c}` without duplicates. -/
theorem insert_ids_by_date_union_witness :
    (get_ids_by_date
        (insert_ids_by_date [("2024-01-01", ["a", "b"])] "2024-01-01" ["b", "c"])
        "2024-01-01").toFinset
      = (get_ids_by_date [("2024-01-01", ["a", "b"])] "2024-01-01").toFinset
          ∪ (["b", "c"] : List String).toFinset
    ∧ (get_ids_by_date
        (insert_ids_by_date [("2024-01-01", ["a", "b"])] "2024-01-01" ["b", "c"])
        "2024-01-01").Nodup
    ∧ insert_ids_by_date [] "2024-01-01" ["b", "c"] = [("2024-01-01", ["b", "c"])] :=
  ⟨(insert_ids_by_date_union [("2024-01-01", ["a", "b"])] "2024-01-01" ["b", "c"]).1,
   (insert_ids_by_date_union [("2024-01-01", ["a", "b"])] "2024-01-01" ["b", "c"]).2.1
     ⟨("2024-01-01", ["a", "b"]), by decide, rfl⟩,
   (insert_ids_by_date_union [] "2024-01-01" ["b", "c"]).2.2 (by decide)⟩

/-- Counterexample to C5 as stated: a first-time insert whose input list
contains duplicates stores the list verbatim, so the stored entry for the
day has duplicate identifiers. -/
theorem first_insert_keeps_duplicates :
    get_ids_by_date (insert_ids_by_date [] "2024-01-01" ["a", "a"]) "2024-01-01"
        = ["a", "a"]
    ∧ ¬ (get_ids_by_date (insert_ids_by_date [] "2024-01-01" ["a", "a"])
          "2024-01-01").Nodup := by
  constructor
  · rfl
  · decide

/-- C5 as amended: every ledger mutation (the only one is
`insert_ids_by_date`) only grows the identifier set of every day and only
ever appends a record, never deleting one; the updated entry is
duplicate-free whenever an entry for the day already existed, and a
first-time insert is duplicate-free provided its input list is. -/
theorem ledger_invariants (db : Ledger) (day : String) (ids : List String) :
    (∀ d, (get_ids_by_date db d).toFinset
        ⊆ (get_ids_by_date (insert_ids_by_date db day ids) d).toFinset)
    ∧ ((insert_ids_by_date db day ids).map Prod.fst = db.map Prod.fst
        ∨ (insert_ids_by_date db day ids).map Prod.fst
            = db.map Prod.fst ++ [day])
    ∧ ((∃ r ∈ db, r.1 = day) →
        (get_ids_by_date (insert_ids_by_date db day ids) day).Nodup)
    ∧ (ids.Nodup →
        (get_ids_by_date (insert_ids_by_date db day ids) day).Nodup) := by
  refine ⟨?_, ?_, ?_, ?_⟩
  · intro d
    by_cases hd : d = day
    · subst hd
      rw [get_insert_toFinset]
      exact Finset.subset_union_left
    · rw [get_insert_other db day ids d hd]
  · cases h : db.find? (fun r => r.1 == day) with
    | some r =>
        left
        simp only [insert_ids_by_date, h, List.map_map]
        congr 1
        funext q
        dsimp only [Function.comp]
        split <;> rfl
    | none =>
        right
        simp [insert_ids_by_date, h]
  · intro h
    obtain ⟨r, hr⟩ := exists_entry_find?_some h
    rw [get_insert_self, hr]
    exact List.nodup_dedup _
  · intro hids
    rw [get_insert_self]
    cases h : db.find? (fun r => r.1 == day) with
    | none => exact hids
    | some r => exact List.nodup_dedup _

/-- Witness for the amended C5 at a concrete ledger. -/
theorem ledger_invariants_witness :
    (get_ids_by_date [("2024-01-01", ["a"])] "2024-01-01").toFinset
        ⊆ (get_ids_by_date
            (insert_ids_by_date [("2024-01-01", ["a"])] "2024-01-01" ["b"])
            "2024-01-01").toFinset
    ∧ (get_ids_by_date
        (insert_ids_by_date [("2024-01-01", ["a"])] "2024-01-01" ["b"])
        "2024-01-01").Nodup
    ∧ (get_ids_by_date (insert_ids_by_date [] "2024-01-02" ["c", "d"])
        "2024-01-02").Nodup :=
  ⟨(ledger_invariants [("2024-01-01", ["a"])] "2024-01-01" ["b"]).1 "2024-01-01",
   (ledger_invariants [("2024-01-01", ["a"])] "2024-01-01" ["b"]).2.2.1
     ⟨("2024-01-01", ["a"]), by decide, rfl⟩,
   (ledger_invariants [] "2024-01-02" ["c", "d"]).2.2.2 (by decide)⟩

/-! ### Target-path generation -/

theorem decDigits_small {n : Nat} (h : n < 10) (f : Nat) :
    decDigits f n = [Nat.digitChar n] := by
  cases f with
  | zero => simp [decDigits, Nat.mod_eq_of_lt h]
  | succ f => simp [decDigits, h]

theorem decDigits_ne_nil (f n : Nat) : decDigits f n ≠ [] := by
  cases f with
  | zero => simp [decDigits]
  | succ f =>
      by_cases h : n < 10 <;> simp [decDigits, h]

theorem decDigits_fuel : ∀ n f g : Nat, n ≤ f → n ≤ g →
    decDigits f n = decDigits g n := by
  intro n
  induction n using Nat.strong_induction_on with
  | _ n ih =>
      intro f g hf hg
      by_cases h : n < 10
      · rw [decDigits_small h, decDigits_small h]
      · have h10 : 10 ≤ n := by omega
        have hdiv : n / 10 < n := Nat.div_lt_self (by omega) (by omega)
        cases f with
        | zero => omega
        | succ f =>
            cases g with
            | zero => omega
            | succ g =>
                simp only [decDigits, h, if_false]
                rw [ih (n / 10) hdiv f g (by omega) (by omega)]

theorem digitChar_inj :
    ∀ a, a < 10 → ∀ b, b < 10 → Nat.digitChar a = Nat.digitChar b → a = b := by
  decide

theorem decDigits_canon_inj : ∀ n m : Nat,
    decDigits n n = decDigits m m → n = m := by
  intro n
  induction n using Nat.strong_induction_on with
  | _ n ih =>
      intro m h
      by_cases hn : n < 10 <;> by_cases hm : m < 10
      · rw [decDigits_small hn, decDigits_small hm] at h
        exact digitChar_inj n hn m hm (by simpa using h)
      · exfalso
        have h10 : 10 ≤ m := by omega
        obtain ⟨m', rfl⟩ : ∃ m', m = m' + 1 := ⟨m - 1, by omega⟩
        rw [decDigits_small hn] at h
        simp only [decDigits, hm, if_false] at h
        have hlen := congrArg List.length h
        simp only [List.length_append, List.length_cons, List.length_nil] at hlen
        exact absurd (List.length_eq_zero.mp (by omega)) (decDigits_ne_nil m' ((m' + 1) / 10))
      · exfalso
        have h10 : 10 ≤ n := by omega
        obtain ⟨n', rfl⟩ : ∃ k, n = k + 1 := ⟨n - 1, by omega⟩
        rw [decDigits_small hm] at h
        simp only [decDigits, hn, if_false] at h
        have hlen := congrArg List.length h
        simp only [List.length_append, List.length_cons, List.length_nil] at hlen
        exact absurd (List.length_eq_zero.mp (by omega)) (decDigits_ne_nil n' ((n' + 1) / 10))
      · have h10n : 10 ≤ n := by omega
        have h10m : 10 ≤ m := by omega
        obtain ⟨n', rfl⟩ : ∃ k, n = k + 1 := ⟨n - 1, by omega⟩
        obtain ⟨m', rfl⟩ : ∃ k, m = k + 1 := ⟨m - 1, by omega⟩
        simp only [decDigits, hn, hm, if_false] at h
        obtain ⟨hA, hb⟩ := List.append_inj' h rfl
        have hdivn : (n' + 1) / 10 < n' + 1 := Nat.div_lt_self (by omega) (by omega)
        have hdivm : (m' + 1) / 10 < m' + 1 := Nat.div_lt_self (by omega) (by omega)
        have hA' : decDigits ((n' + 1) / 10) ((n' + 1) / 10)
            = decDigits ((m' + 1) / 10) ((m' + 1) / 10) := by
          rw [decDigits_fuel _ ((n' + 1) / 10) n' le_rfl (by omega),
              decDigits_fuel _ ((m' + 1) / 10) m' le_rfl (by omega)]
          exact hA
        have hdiv := ih ((n' + 1) / 10) hdivn ((m' + 1) / 10) hA'
        have hmod : (n' + 1) % 10 = (m' + 1) % 10 := by
          refine digitChar_inj _ (Nat.mod_lt _ (by omega)) _ (Nat.mod_lt _ (by omega)) ?_
          simpa using hb
        omega

theorem decRepr_inj {n m : Nat} (h : decRepr n = decRepr m) : n = m :=
  decDigits_canon_inj n m (congrArg String.data h)

theorem zipName_inj (day : String) {c₁ c₂ : Nat}
    (h : zipName day c₁ = zipName day c₂) : c₁ = c₂ := by
  have hd := congrArg String.data h
  simp only [zipName, String.data_append, List.append_assoc] at hd
  have h1 := List.append_cancel_left hd
  have h2 := List.append_cancel_left h1
  have h3 := List.append_cancel_left h2
  have h4 := List.append_cancel_right h3
  exact decRepr_inj (string_data_eq h4)

theorem exists_free_name (files : List String) (day : String) :
    ∃ j, j < files.length + 1 ∧ zipName day (1 + j) ∉ files := by
  by_contra hcon
  push_neg at hcon
  set L := (List.range' 1 (files.length + 1)).map (zipName day) with hL
  have hnd : L.Nodup := by
    refine (List.nodup_range' 1 (files.length + 1)).map ?_
    intro a b hab
    exact zipName_inj day hab
  have hsub : ∀ x ∈ L, x ∈ files := by
    intro x hx
    rw [hL, List.mem_map] at hx
    obtain ⟨c, hc, rfl⟩ := hx
    rw [List.mem_range'_1] at hc
    have : c = 1 + (c - 1) := by omega
    rw [this]
    exact hcon (c - 1) (by omega)
  have hcard : L.toFinset.card ≤ files.toFinset.card := by
    refine Finset.card_le_card ?_
    intro x hx
    rw [List.mem_toFinset] at hx ⊢
    exact hsub x hx
  rw [List.toFinset_card_of_nodup hnd, hL, List.length_map,
      List.length_range'] at hcard
  have := files.toFinset_card_le
  omega

theorem findName_spec (files : List String) (day : String) :
    ∀ fuel c, (∃ j, j < fuel ∧ zipName day (c + j) ∉ files) →
    ∃ j, j < fuel ∧ findName files day fuel c = zipName day (c + j)
      ∧ zipName day (c + j) ∉ files
      ∧ ∀ i, i < j → zipName day (c + i) ∈ files := by
  intro fuel
  induction fuel with
  | zero =>
      intro c h
      obtain ⟨j, hj, _⟩ := h
      omega
  | succ fuel ih =>
      intro c h
      by_cases hmem : zipName day c ∈ files
      · obtain ⟨j, hj, hfree⟩ := h
        obtain ⟨j', rfl⟩ : ∃ j', j = j' + 1 := by
          cases j with
          | zero => exact absurd hfree (by simpa using hmem)
          | succ j' => exact ⟨j', rfl⟩
        obtain ⟨j₀, hj₀, heq, hfr, hbefore⟩ := ih (c + 1)
          ⟨j', by omega, by rw [show c + 1 + j' = c + (j' + 1) by omega]; exact hfree⟩
        refine ⟨j₀ + 1, by omega, ?_, ?_, ?_⟩
        · simpa [findName, hmem, show c + (j₀ + 1) = c + 1 + j₀ by omega] using heq
        · rw [show c + (j₀ + 1) = c + 1 + j₀ by omega]
          exact hfr
        · intro i hi
          cases i with
          | zero => simpa using hmem
          | succ i' =>
              rw [show c + (i' + 1) = c + 1 + i' by omega]
              exact hbefore i' (by omega)
      · exact ⟨0, by omega, by simp [findName, hmem], by simpa using hmem,
          fun i hi => by omega⟩

/-- C9: the generated archive path is `zipName day c` for the least unused
counter `c ≥ 1`: the returned path never names an existing file, and every
smaller counter's candidate path does name one. -/
theorem get_zip_filename_fresh (files : List String) (day : String) :
    ∃ c, 1 ≤ c ∧ get_zip_filename files day = zipName day c
      ∧ zipName day c ∉ files
      ∧ ∀ k, 1 ≤ k → k < c → zipName day k ∈ files := by
  obtain ⟨j, hj, hfree⟩ := exists_free_name files day
  obtain ⟨j₀, hj₀, heq, hfr, hbefore⟩ :=
    findName_spec files day (files.length + 1) 1 ⟨j, hj, hfree⟩
  refine ⟨1 + j₀, by omega, heq, hfr, ?_⟩
  intro k hk1 hkc
  have hk : k = 1 + (k - 1) := by omega
  rw [hk]
  exact hbefore (k - 1) (by omega)

/-! ### Cohort building: stable sort and grouping -/

abbrev DaySorted (l : List NeededItem) : Prop :=
  l.Pairwise (fun a b => a.captured_day.data ≤ b.captured_day.data)

theorem mem_insertByDay {x z : NeededItem} : ∀ {l : List NeededItem},
    z ∈ insertByDay x l ↔ z = x ∨ z ∈ l := by
  intro l
  induction l with
  | nil => simp [insertByDay]
  | cons y ys ih =>
      by_cases h : y.captured_day.data < x.captured_day.data
      · simp only [insertByDay, if_pos h, List.mem_cons, ih]
        tauto
      · simp [insertByDay, if_neg h]

theorem daySorted_insertByDay {x : NeededItem} : ∀ {l : List NeededItem},
    DaySorted l → DaySorted (insertByDay x l) := by
  intro l
  induction l with
  | nil =>
      intro _
      simp [insertByDay]
  | cons y ys ih =>
      intro h
      obtain ⟨hy, hys⟩ := List.pairwise_cons.mp h
      by_cases hlt : y.captured_day.data < x.captured_day.data
      · rw [insertByDay, if_pos hlt]
        refine List.pairwise_cons.mpr ⟨?_, ih hys⟩
        intro z hz
        rcases mem_insertByDay.mp hz with rfl | hz'
        · exact le_of_lt hlt
        · exact hy z hz'
      · rw [insertByDay, if_neg hlt]
        refine List.pairwise_cons.mpr ⟨?_, List.pairwise_cons.mpr ⟨hy, hys⟩⟩
        intro z hz
        rcases List.mem_cons.mp hz with rfl | hz'
        · exact not_lt.mp hlt
        · exact le_trans (not_lt.mp hlt) (hy z hz')

theorem daySorted_sortByDay : ∀ l : List NeededItem, DaySorted (sortByDay l) := by
  intro l
  induction l with
  | nil => simp [sortByDay]
  | cons x xs ih => exact daySorted_insertByDay ih

theorem filter_insertByDay_pos {x : NeededItem} {k : String}
    (hx : x.captured_day = k) : ∀ l : List NeededItem,
    (insertByDay x l).filter (fun i => i.captured_day == k)
      = x :: l.filter (fun i => i.captured_day == k) := by
  intro l
  induction l with
  | nil => simp [insertByDay, List.filter, hx]
  | cons y ys ih =>
      by_cases h : y.captured_day.data < x.captured_day.data
      · have hyk : (y.captured_day == k) = false := by
          rw [beq_eq_false_iff_ne]
          intro e
          exact absurd (congrArg String.data (e.trans hx.symm)) (ne_of_lt h)
        simp only [insertByDay, if_pos h, List.filter_cons, hyk, ih]
        simp
      · have hxk : (x.captured_day == k) = true := by simp [hx]
        simp [insertByDay, if_neg h, List.filter_cons, hxk]

theorem filter_insertByDay_neg {x : NeededItem} {k : String}
    (hx : x.captured_day ≠ k) : ∀ l : List NeededItem,
    (insertByDay x l).filter (fun i => i.captured_day == k)
      = l.filter (fun i => i.captured_day == k) := by
  intro l
  induction l with
  | nil => simp [insertByDay, List.filter, beq_eq_false_iff_ne.mpr hx]
  | cons y ys ih =>
      by_cases h : y.captured_day.data < x.captured_day.data
      · simp [insertByDay, if_pos h, List.filter_cons, ih]
      · simp [insertByDay, if_neg h, List.filter_cons,
          beq_eq_false_iff_ne.mpr hx]

theorem filter_sortByDay (k : String) : ∀ l : List NeededItem,
    (sortByDay l).filter (fun i => i.captured_day == k)
      = l.filter (fun i => i.captured_day == k) := by
  intro l
  induction l with
  | nil => rfl
  | cons x xs ih =>
      by_cases hx : x.captured_day = k
      · rw [sortByDay, filter_insertByDay_pos hx, ih, List.filter_cons]
        simp [hx]
      · rw [sortByDay, filter_insertByDay_neg hx, ih, List.filter_cons]
        simp [beq_eq_false_iff_ne.mpr hx]

theorem groupRuns_eq_nil_iff : ∀ l : List NeededItem, groupRuns l = [] ↔ l = [] := by
  intro l
  cases l with
  | nil => simp [groupRuns]
  | cons x xs =>
      simp only [groupRuns]
      cases hr : groupRuns xs with
      | nil => simp
      | cons c rest =>
          obtain ⟨k, g⟩ := c
          by_cases h : x.captured_day = k <;> simp [h]

theorem groupRuns_wf : ∀ (l : List NeededItem) (k : String) (g : List NeededItem),
    (k, g) ∈ groupRuns l → g ≠ [] ∧ ∀ i ∈ g, i.captured_day = k ∧ i ∈ l := by
  intro l
  induction l with
  | nil => simp [groupRuns]
  | cons x xs ih =>
      intro k g hm
      revert hm
      cases hr : groupRuns xs with
      | nil =>
          intro hm
          simp only [groupRuns, hr, List.mem_singleton] at hm
          injection hm with hk hg
          subst hk
          subst hg
          exact ⟨by simp, by simp⟩
      | cons c rest =>
          obtain ⟨k₀, g₀⟩ := c
          intro hm
          by_cases hx : x.captured_day = k₀
          · simp only [groupRuns, hr, if_pos hx] at hm
            rcases List.mem_cons.mp hm with hhead | htail
            · injection hhead with hk hg
              subst hk
              subst hg
              refine ⟨by simp, ?_⟩
              intro i hi
              rcases List.mem_cons.mp hi with rfl | hi'
              · exact ⟨hx, by simp⟩
              · obtain ⟨_, hall⟩ := ih k g₀ (by rw [hr]; exact List.mem_cons_self _ _)
                exact ⟨(hall i hi').1, List.mem_cons_of_mem _ (hall i hi').2⟩
            · obtain ⟨hne, hall⟩ := ih k g (by rw [hr]; exact List.mem_cons_of_mem _ htail)
              exact ⟨hne, fun i hi => ⟨(hall i hi).1, List.mem_cons_of_mem _ (hall i hi).2⟩⟩
          · simp only [groupRuns, hr, if_neg hx] at hm
            rcases List.mem_cons.mp hm with hhead | htail
            · injection hhead with hk hg
              subst hk
              subst hg
              exact ⟨by simp, by simp⟩
            · obtain ⟨hne, hall⟩ := ih k g (by rw [hr]; exact htail)
              exact ⟨hne, fun i hi => ⟨(hall i hi).1, List.mem_cons_of_mem _ (hall i hi).2⟩⟩

theorem groupRuns_cons_key : ∀ (x : NeededItem) (xs : List NeededItem),
    ∃ g rest, groupRuns (x :: xs) = (x.captured_day, g) :: rest := by
  intro x xs
  cases hr : groupRuns xs with
  | nil => exact ⟨[x], [], by simp [groupRuns, hr]⟩
  | cons c rest =>
      obtain ⟨k₀, g₀⟩ := c
      by_cases hx : x.captured_day = k₀
      · exact ⟨x :: g₀, rest, by simp [groupRuns, hr, hx]⟩
      · exact ⟨[x], (k₀, g₀) :: rest, by simp [groupRuns, hr, hx]⟩

theorem groupRuns_key_mem : ∀ (l : List NeededItem) (k : String),
    k ∈ (groupRuns l).map Prod.fst → ∃ y ∈ l, y.captured_day = k := by
  intro l k hk
  rw [List.mem_map] at hk
  obtain ⟨⟨k', g⟩, hmem, hfst⟩ := hk
  dsimp at hfst
  subst hfst
  obtain ⟨hne, hall⟩ := groupRuns_wf l k' g hmem
  obtain ⟨i, hi⟩ := List.exists_mem_of_ne_nil g hne
  exact ⟨i, (hall i hi).2, (hall i hi).1⟩

theorem daySorted_head_day {x h : NeededItem} {t : List NeededItem}
    (hp : DaySorted (x :: h :: t)) {y : NeededItem} (hy : y ∈ h :: t)
    (hd : y.captured_day = x.captured_day) :
    h.captured_day = x.captured_day := by
  obtain ⟨hx1, hp'⟩ := List.pairwise_cons.mp hp
  obtain ⟨hh, _⟩ := List.pairwise_cons.mp hp'
  have h1 : x.captured_day.data ≤ h.captured_day.data :=
    hx1 h (List.mem_cons_self _ _)
  have h2 : h.captured_day.data ≤ y.captured_day.data := by
    rcases List.mem_cons.mp hy with rfl | hy'
    · exact le_rfl
    · exact hh y hy'
  rw [hd] at h2
  exact string_data_eq (le_antisymm h2 h1)

theorem sorted_cons_same_day_key {x : NeededItem} {xs : List NeededItem}
    {k₀ : String} {g₀ : List NeededItem} {rest : List Cohort}
    (hp : DaySorted (x :: xs)) (hr : groupRuns xs = (k₀, g₀) :: rest)
    {y : NeededItem} (hy : y ∈ xs) (hd : y.captured_day = x.captured_day) :
    k₀ = x.captured_day := by
  obtain ⟨h, t, rfl⟩ : ∃ h t, xs = h :: t := by
    cases xs with
    | nil => simp [groupRuns] at hr
    | cons h t => exact ⟨h, t, rfl⟩
  have hk₀ : k₀ = h.captured_day := by
    obtain ⟨g', rest', hr'⟩ := groupRuns_cons_key h t
    rw [hr] at hr'
    have hh := congrArg (fun l => (l.headD ("", [])).1) hr'
    simpa using hh
  rw [hk₀]
  exact daySorted_head_day hp hy hd

theorem groupRuns_keys_nodup : ∀ l : List NeededItem, DaySorted l →
    ((groupRuns l).map Prod.fst).Nodup := by
  intro l
  induction l with
  | nil => simp [groupRuns]
  | cons x xs ih =>
      intro hp
      have hp' : DaySorted xs := hp.of_cons
      cases hr : groupRuns xs with
      | nil => simp [groupRuns, hr]
      | cons c rest =>
          obtain ⟨k₀, g₀⟩ := c
          have hkeys := ih hp'
          rw [hr] at hkeys
          by_cases hx : x.captured_day = k₀
          · simpa [groupRuns, hr, hx] using hkeys
          · simp only [groupRuns, hr, if_neg hx, List.map_cons, List.nodup_cons]
            refine ⟨?_, by simpa using hkeys⟩
            intro hk
            have hk' : x.captured_day ∈ (groupRuns xs).map Prod.fst := by
              rw [hr]
              simpa using hk
            obtain ⟨y, hy, hyd⟩ := groupRuns_key_mem xs x.captured_day hk'
            exact hx (sorted_cons_same_day_key hp hr hy hyd).symm

theorem groupRuns_filter : ∀ l : List NeededItem, DaySorted l →
    ∀ (k : String) (g : List NeededItem), (k, g) ∈ groupRuns l →
    g = l.filter (fun i => i.captured_day == k) := by
  intro l
  induction l with
  | nil => simp [groupRuns]
  | cons x xs ih =>
      intro hp k g hm
      have hp' : DaySorted xs := hp.of_cons
      revert hm
      cases hr : groupRuns xs with
      | nil =>
          intro hm
          have hxs : xs = [] := (groupRuns_eq_nil_iff xs).mp hr
          subst hxs
          simp only [groupRuns, List.mem_singleton] at hm
          injection hm with hk hg
          subst hk
          subst hg
          simp [List.filter]
      | cons c rest =>
          obtain ⟨k₀, g₀⟩ := c
          intro hm
          by_cases hx : x.captured_day = k₀
          · simp only [groupRuns, hr, if_pos hx] at hm
            rcases List.mem_cons.mp hm with hhead | htail
            · injection hhead with hk hg
              subst hk
              subst hg
              have hg₀ := ih hp' k g₀ (by rw [hr]; exact List.mem_cons_self _ _)
              rw [List.filter_cons, hg₀]
              simp [hx]
            · have hkeys := groupRuns_keys_nodup xs hp'
              rw [hr] at hkeys
              simp only [List.map_cons, List.nodup_cons] at hkeys
              have hk_mem : k ∈ rest.map Prod.fst :=
                List.mem_map.mpr ⟨(k, g), htail, rfl⟩
              have hkne : k ≠ k₀ := fun e => hkeys.1 (e ▸ hk_mem)
              have hgf := ih hp' k g (by rw [hr]; exact List.mem_cons_of_mem _ htail)
              rw [hgf, List.filter_cons]
              simp [show (x.captured_day == k) = false from
                beq_eq_false_iff_ne.mpr (fun e => hkne ((hx.symm.trans e).symm))]
          · simp only [groupRuns, hr, if_neg hx] at hm
            rcases List.mem_cons.mp hm with hhead | htail
            · injection hhead with hk hg
              subst hk
              subst hg
              rw [List.filter_cons]
              have hnil : xs.filter (fun i => i.captured_day == x.captured_day) = [] := by
                rw [List.filter_eq_nil_iff]
                intro y hy hc
                have hyd : y.captured_day = x.captured_day := by simpa using hc
                exact hx (sorted_cons_same_day_key hp hr hy hyd).symm
              simp [hnil]
            · have hgf := ih hp' k g (by rw [hr]; exact htail)
              have hxk : x.captured_day ≠ k := by
                intro e
                have hk' : k ∈ (groupRuns xs).map Prod.fst := by
                  rw [hr]
                  exact List.mem_map.mpr ⟨(k, g), htail, rfl⟩
                obtain ⟨y, hy, hyd⟩ := groupRuns_key_mem xs k hk'
                exact hx (sorted_cons_same_day_key hp hr hy (hyd.trans e.symm)).symm
              rw [hgf, List.filter_cons]
              simp [beq_eq_false_iff_ne.mpr hxk]

theorem takeWhile_append_all {p : Char → Bool} : ∀ {l₁ l₂ : List Char},
    (∀ c ∈ l₁, p c = true) → (l₁ ++ l₂).takeWhile p = l₁ ++ l₂.takeWhile p := by
  intro l₁
  induction l₁ with
  | nil => simp
  | cons a t ih =>
      intro l₂ h
      have ha : p a = true := h a (by simp)
      simp only [List.cons_append, List.takeWhile_cons, ha, if_true]
      rw [ih (fun c hc => h c (by simp [hc]))]

theorem captureDay_truncates (day rest : String) (h : ∀ c ∈ day.data, c ≠ 'T') :
    captureDay (day ++ "T" ++ rest) = day := by
  have hdata : (day ++ "T" ++ rest).data = day.data ++ ('T' :: rest.data) := by
    simp [String.data_append]
  rw [captureDay, hdata, takeWhile_append_all (p := fun c => decide (c ≠ 'T'))
    (fun c hc => by simp [h c hc])]
  have hT : (('T' :: rest.data).takeWhile (fun c => decide (c ≠ 'T'))) = [] := by
    simp [List.takeWhile_cons]
  rw [hT, List.append_nil]

/-- C8: the Cohort Builder derives each item's capture-day by truncating
the capture timestamp at the first `'T'` (the date component, no timezone
conversion), and grouping is stable: each cohort of `grouped_data` is
exactly the input page's items of that day, in input order. -/
theorem cohort_builder_correct :
    (∀ it : RawItem, (toNeeded it).captured_day = captureDay it.captured_at)
    ∧ (∀ day rest : String, (∀ c ∈ day.data, c ≠ 'T') →
        captureDay (day ++ "T" ++ rest) = day)
    ∧ (∀ (media : List RawItem) (k : String) (g : List NeededItem),
        (k, g) ∈ grouped_data media →
        g = (build_needed media).filter (fun i => i.captured_day == k)) := by
  refine ⟨fun it => rfl, captureDay_truncates, ?_⟩
  intro media k g hm
  have hg := groupRuns_filter _ (daySorted_sortByDay _) k g hm
  rw [hg, filter_sortByDay]

/-- Witness for C8 on a concrete page: the timestamp is truncated at the
`'T'` and a one-item page groups into the filtered, input-ordered cohort. -/
theorem cohort_builder_correct_witness :
    captureDay ("2024-01-05" ++ "T" ++ "10:00:00Z") = "2024-01-05"
    ∧ [toNeeded sampleA]
      = (build_needed [sampleA]).filter (fun i => i.captured_day == "2024-01-05") :=
  ⟨cohort_builder_correct.2.1 "2024-01-05" "10:00:00Z" (by decide),
   cohort_builder_correct.2.2 [sampleA] "2024-01-05" [toNeeded sampleA] (by decide)⟩

/-! ### Reconciliation and fetching -/

theorem decidedDays_append : ∀ a b : List Ev,
    decidedDays (a ++ b) = decidedDays a ++ decidedDays b := by
  intro a b
  induction a with
  | nil => rfl
  | cons e es ih => cases e <;> simp [decidedDays, ih]

/-- C1: the Reconciliation Decider requires a fetch unless the ledger's
identifier count for the day is nonzero and exactly equals the cohort's
item count: with equal nonzero counts the cohort is skipped, otherwise
`download_media` is invoked. -/
theorem reconciliation_rule (arch : List String → Nat) (st : EngineState)
    (day : String) (items : List NeededItem) :
    ((get_ids_by_date st.db day).length ≠ 0 ∧
        (get_ids_by_date st.db day).length = items.length →
      processCohort arch st (day, items)
        = (st, [Ev.skip day (get_zip_filename st.files day)]))
    ∧ ((get_ids_by_date st.db day).length = 0 ∨
        (get_ids_by_date st.db day).length ≠ items.length →
      processCohort arch st (day, items)
        = download_media arch st (get_zip_filename st.files day) items) := by
  constructor
  · intro h
    have hc : ¬ ((get_ids_by_date st.db day).length = 0 ∨
        (get_ids_by_date st.db day).length ≠ items.length) := by
      push_neg
      exact h
    simp only [processCohort, if_neg hc]
  · intro h
    simp only [processCohort, if_pos h]

/-- Witness for C1: a one-item cohort is skipped against a one-identifier
ledger entry and fetched against an empty ledger. -/
theorem reconciliation_rule_witness :
    processCohort archAll200 ⟨[("2024-01-05", ["a"])], []⟩
        ("2024-01-05", [toNeeded sampleA])
      = (⟨[("2024-01-05", ["a"])], []⟩,
         [Ev.skip "2024-01-05" (get_zip_filename [] "2024-01-05")])
    ∧ processCohort archAll200 ⟨[], []⟩ ("2024-01-05", [toNeeded sampleA])
      = download_media archAll200 ⟨[], []⟩ (get_zip_filename [] "2024-01-05")
          [toNeeded sampleA] :=
  ⟨(reconciliation_rule archAll200 ⟨[("2024-01-05", ["a"])], []⟩
      "2024-01-05" [toNeeded sampleA]).1 (by decide),
   (reconciliation_rule archAll200 ⟨[], []⟩
      "2024-01-05" [toNeeded sampleA]).2 (by decide)⟩

theorem decidedDays_processCohort (arch : List String → Nat)
    (st : EngineState) (c : Cohort) (hne : c.2 ≠ [])
    (hday : ∀ i ∈ c.2, i.captured_day = c.1) :
    decidedDays (processCohort arch st c).2 = [c.1] := by
  obtain ⟨k, items⟩ := c
  cases items with
  | nil => exact absurd rfl hne
  | cons i0 t =>
      have hd : i0.captured_day = k := hday i0 (List.mem_cons_self _ _)
      simp only [processCohort]
      by_cases hifc : (get_ids_by_date st.db k).length = 0 ∨
          (get_ids_by_date st.db k).length ≠ (i0 :: t).length
      · rw [if_pos hifc]
        simp only [download_media]
        by_cases hs : arch ((i0 :: t).map (fun i => i.id)) = 200
        · rw [if_pos hs]
          simp [decidedDays, hd]
        · rw [if_neg hs]
          simp [decidedDays, hd]
      · rw [if_neg hifc]
        simp [decidedDays]

theorem decidedDays_processCohorts (arch : List String → Nat) :
    ∀ (cs : List Cohort) (st : EngineState),
    (∀ c ∈ cs, c.2 ≠ [] ∧ ∀ i ∈ c.2, i.captured_day = c.1) →
    decidedDays (processCohorts arch st cs).2 = cs.map Prod.fst := by
  intro cs
  induction cs with
  | nil =>
      intro st _
      rfl
  | cons c cs ih =>
      intro st h
      have hc := h c (List.mem_cons_self _ _)
      have hcs := fun c' hc' => h c' (List.mem_cons_of_mem _ hc')
      simp only [processCohorts]
      rw [decidedDays_append, ih _ hcs,
        decidedDays_processCohort arch st c hc.1 hc.2]
      rfl

theorem decidedDays_download_by_date (arch : List String → Nat)
    (st : EngineState) (media : List RawItem) :
    decidedDays (download_by_date arch st media).2
      = (grouped_data media).map Prod.fst := by
  apply decidedDays_processCohorts
  intro c hc
  obtain ⟨k, g⟩ := c
  obtain ⟨hne, hall⟩ := groupRuns_wf _ k g hc
  exact ⟨hne, fun i hi => (hall i hi).1⟩

theorem decidedDays_run_pages (arch : List String → Nat) :
    ∀ (pages : List (List RawItem)) (st : EngineState),
    decidedDays (run_pages arch st pages).2
      = (pages.map (fun m => (grouped_data m).map Prod.fst)).flatten := by
  intro pages
  induction pages with
  | nil =>
      intro st
      rfl
  | cons m ms ih =>
      intro st
      simp only [run_pages]
      rw [decidedDays_append, decidedDays_download_by_date, ih]
      simp

/-- C3: an archive fetch merges the ledger exactly when the response is
HTTP 200, and the merge event follows the completed file write in the
trace; on any non-200 status the state (and hence the ledger) is left
untouched, no merge event occurs, and every cohort of every page still
receives a reconciliation outcome (the run never aborts mid-page). -/
theorem archive_fetch_ledger_discipline (arch : List String → Nat)
    (st : EngineState) (zip : String) (data : List NeededItem) :
    (arch (data.map (fun i => i.id)) = 200 →
      (download_media arch st zip data).2
        = [Ev.fetchReq ((data.head?.map (fun i => i.captured_day)).getD "")
             (data.map (fun i => i.id)),
           Ev.fileWrite zip,
           Ev.ledgerMerge ((data.head?.map (fun i => i.captured_day)).getD "")
             (data.map (fun i => i.id))]
      ∧ (download_media arch st zip data).1.db
        = insert_ids_by_date st.db
            ((data.head?.map (fun i => i.captured_day)).getD "")
            (data.map (fun i => i.id)))
    ∧ (arch (data.map (fun i => i.id)) ≠ 200 →
      (download_media arch st zip data).1 = st
      ∧ (download_media arch st zip data).2
        = [Ev.fetchReq ((data.head?.map (fun i => i.captured_day)).getD "")
             (data.map (fun i => i.id)),
           Ev.fetchFail ((data.head?.map (fun i => i.captured_day)).getD "")
             (arch (data.map (fun i => i.id)))]
      ∧ ∀ d ids, Ev.ledgerMerge d ids ∉ (download_media arch st zip data).2)
    ∧ (∀ media : List RawItem, decidedDays (download_by_date arch st media).2
        = (grouped_data media).map Prod.fst) := by
  refine ⟨?_, ?_, fun media => decidedDays_download_by_date arch st media⟩
  · intro hs
    constructor <;> simp [download_media, hs]
  · intro hs
    refine ⟨?_, ?_, ?_⟩
    · simp [download_media, hs]
    · simp [download_media, hs]
    · intro d ids
      simp [download_media, hs]

/-- Witness for C3: a successful fetch writes then merges; a 503 fetch
leaves the engine state untouched. -/
theorem archive_fetch_ledger_discipline_witness :
    (download_media archAll200 ⟨[], []⟩ "downloads/x.zip" [toNeeded sampleA]).1.db
      = [("2024-01-05", ["a"])]
    ∧ (download_media archAll503 ⟨[], []⟩ "downloads/x.zip" [toNeeded sampleA]).1
      = ⟨[], []⟩ := by
  constructor
  · have h := (archive_fetch_ledger_discipline archAll200 ⟨[], []⟩
      "downloads/x.zip" [toNeeded sampleA]).1 (by decide)
    rw [h.2]
    decide
  · exact ((archive_fetch_ledger_discipline archAll503 ⟨[], []⟩
      "downloads/x.zip" [toNeeded sampleA]).2.1 (by decide)).1

/-- Counterexample to C6 as stated: with the same capture-day appearing on
two processed pages, the run issues two separate archive fetches and two
reconciliation outcomes for that day — the pages are not merged into a
single cohort. -/
theorem cross_page_counterexample :
    decidedDays (main_model listingSameDay archAll200 30 ⟨[], []⟩).trace
      = ["2024-01-05", "2024-01-05"]
    ∧ fetchReqDays (main_model listingSameDay archAll200 30 ⟨[], []⟩).trace
      = ["2024-01-05", "2024-01-05"]
    ∧ ¬ (decidedDays (main_model listingSameDay archAll200 30 ⟨[], []⟩).trace).Nodup := by
  decide

/-- C6 as amended: grouping is per page — within one page all items of a
day form a single cohort (each page's cohort keys are distinct), but across
pages a day is reconciled once per page on which it appears, in page
order. -/
theorem per_page_grouping (arch : List String → Nat) (st : EngineState)
    (pages : List (List RawItem)) :
    (∀ media : List RawItem, ((grouped_data media).map Prod.fst).Nodup)
    ∧ decidedDays (run_pages arch st pages).2
      = (pages.map (fun m => (grouped_data m).map Prod.fst)).flatten :=
  ⟨fun _ => groupRuns_keys_nodup _ (daySorted_sortByDay _),
   decidedDays_run_pages arch pages st⟩

/-- C2 (code bug): against a listing reporting three total pages with a
configured page size of 50, `main` issues only the requests
`[(1, 50), (2, 30)]` — page 3 is never requested (`range(2, total_pages)`
excludes the last page) and the loop pages use the default size 30 instead
of the configured 50. -/
theorem pagination_requests_eval :
    (main_model listingThreePages archAll200 50 ⟨[], []⟩).requests = [(1, 50), (2, 30)]
    ∧ 3 ∉ ((main_model listingThreePages archAll200 50 ⟨[], []⟩).requests.map Prod.fst)
    ∧ ¬ (∀ r ∈ (main_model listingThreePages archAll200 50 ⟨[], []⟩).requests,
          r.2 = 50) := by
  decide

/-- Counterexample to C10 as stated: a 200 listing response with an empty
result set produces no report at all — in particular no "No media was
found" — and the run does not abort on it. -/
theorem empty_result_no_report :
    (main_model listingEmpty200 archAll200 30 ⟨[], []⟩).msgs = []
    ∧ Msg.noMedia ∉ (main_model listingEmpty200 archAll200 30 ⟨[], []⟩).msgs := by
  decide

/-! ### Listing failures and the no-media report -/

theorem page_loop_noMedia (listing : Nat → Nat → ListingResp)
    (arch : List String → Nat) :
    ∀ (ps : List Nat) (st : EngineState),
    (Msg.noMedia ∈ (page_loop listing arch ps st).msgs
      ↔ ∃ r ∈ (page_loop listing arch ps st).requests,
          (listing r.1 r.2).status ≠ 200) := by
  intro ps
  induction ps with
  | nil =>
      intro st
      simp [page_loop]
  | cons p ps ih =>
      intro st
      by_cases hs : (listing p 30).status = 200
      · have h401 : ¬ (listing p 30).status = 401 := by
          rw [hs]
          decide
        simp only [page_loop, search_media, if_neg h401, if_pos hs]
        rw [List.nil_append, ih]
        simp [hs]
      · by_cases h401 : (listing p 30).status = 401
        · simp only [page_loop, search_media, if_pos h401]
          simp [hs]
        · simp only [page_loop, search_media, if_neg h401, if_neg hs]
          simp [hs]

theorem main_model_noMedia (listing : Nat → Nat → ListingResp)
    (arch : List String → Nat) (per_page : Nat) (st0 : EngineState) :
    Msg.noMedia ∈ (main_model listing arch per_page st0).msgs
      ↔ ∃ r ∈ (main_model listing arch per_page st0).requests,
          (listing r.1 r.2).status ≠ 200 := by
  by_cases hs : (listing 1 per_page).status = 200
  · have h401 : ¬ (listing 1 per_page).status = 401 := by
      rw [hs]
      decide
    simp only [main_model, search_media, if_neg h401, if_pos hs]
    rw [List.nil_append, page_loop_noMedia]
    simp [hs]
  · by_cases h401 : (listing 1 per_page).status = 401
    · simp only [main_model, search_media, if_pos h401]
      simp [hs]
    · simp only [main_model, search_media, if_neg h401, if_neg hs]
      simp [hs]

/-- C10 as amended: `search_media` reports a 401 with the fixed
authentication message plus the response body, any other non-200 with its
status code plus body, and returns the parsed payload on 200 (with an
empty result set proceeding like any other 200); the "No media was found"
report of `main` is produced exactly when some issued listing request
returned a non-200 status. -/
theorem listing_failure_reporting (listing : Nat → Nat → ListingResp)
    (arch : List String → Nat) (per_page : Nat) (st0 : EngineState) :
    (∀ resp : ListingResp,
      (resp.status = 401 → search_media resp = (none, [Msg.authFailed resp.text]))
      ∧ (resp.status = 200 → search_media resp = (some resp.body, []))
      ∧ (resp.status ≠ 401 → resp.status ≠ 200 →
          search_media resp = (none, [Msg.httpFailed resp.status resp.text])))
    ∧ (Msg.noMedia ∈ (main_model listing arch per_page st0).msgs
        ↔ ∃ r ∈ (main_model listing arch per_page st0).requests,
            (listing r.1 r.2).status ≠ 200) := by
  refine ⟨fun resp => ⟨?_, ?_, ?_⟩, main_model_noMedia listing arch per_page st0⟩
  · intro h401
    simp [search_media, h401]
  · intro h200
    have h401 : resp.status ≠ 401 := by
      rw [h200]
      decide
    simp [search_media, h401, h200]
  · intro h401 h200
    simp [search_media, h401, h200]

/-- Witness for the amended C10 at the three concrete statuses. -/
theorem listing_failure_reporting_witness :
    search_media ⟨401, "denied", ⟨[], 0⟩⟩ = (none, [Msg.authFailed "denied"])
    ∧ search_media ⟨200, "", ⟨[], 1⟩⟩ = (some ⟨[], 1⟩, [])
    ∧ search_media ⟨503, "boom", ⟨[], 0⟩⟩ = (none, [Msg.httpFailed 503 "boom"]) :=
  ⟨((listing_failure_reporting listingEmpty200 archAll200 30 ⟨[], []⟩).1
      ⟨401, "denied", ⟨[], 0⟩⟩).1 rfl,
   ((listing_failure_reporting listingEmpty200 archAll200 30 ⟨[], []⟩).1
      ⟨200, "", ⟨[], 1⟩⟩).2.1 rfl,
   ((listing_failure_reporting listingEmpty200 archAll200 30 ⟨[], []⟩).1
      ⟨503, "boom", ⟨[], 0⟩⟩).2.2 (by decide) (by decide)⟩

/-! ### Idempotent re-sync -/

theorem mem_sortByDay {z : NeededItem} : ∀ {l : List NeededItem},
    z ∈ sortByDay l ↔ z ∈ l := by
  intro l
  induction l with
  | nil => simp [sortByDay]
  | cons x xs ih => simp [sortByDay, mem_insertByDay, ih]

theorem grouped_keys_sub (media : List RawItem) :
    ∀ k ∈ (grouped_data media).map Prod.fst,
      k ∈ (build_needed media).map (fun i => i.captured_day) := by
  intro k hk
  obtain ⟨y, hy, hyd⟩ := groupRuns_key_mem _ k hk
  exact List.mem_map.mpr ⟨y, mem_sortByDay.mp hy, hyd⟩

theorem find?_none_of_key_not_mem {db : Ledger} {k : String}
    (h : k ∉ db.map Prod.fst) : db.find? (fun r => r.1 == k) = none := by
  rw [List.find?_eq_none]
  intro r hr e
  have hrk : r.1 = k := by simpa using e
  exact h (List.mem_map.mpr ⟨r, hr, hrk⟩)

theorem get_eq_nil_of_key_not_mem {db : Ledger} {k : String}
    (h : k ∉ db.map Prod.fst) : get_ids_by_date db k = [] := by
  simp [get_ids_by_date, find?_none_of_key_not_mem h]

theorem find?_of_nodup_keys : ∀ (records : Ledger),
    (records.map Prod.fst).Nodup → ∀ r ∈ records,
    records.find? (fun q => q.1 == r.1) = some r := by
  intro records
  induction records with
  | nil => simp
  | cons a as ih =>
      intro hnd r hr
      rcases List.mem_cons.mp hr with rfl | hr'
      · exact List.find?_cons_of_pos _ (by simp)
      · have hnd' : a.1 ∉ as.map Prod.fst ∧ (as.map Prod.fst).Nodup := by
          rw [List.map_cons, List.nodup_cons] at hnd
          exact hnd
        have hne : ¬ (a.1 == r.1) = true := by
          simp only [beq_iff_eq]
          intro e
          exact hnd'.1 (e ▸ List.mem_map.mpr ⟨r, hr', rfl⟩)
        rw [List.find?_cons_of_neg (p := fun q => q.1 == r.1) as hne]
        exact ih hnd'.2 r hr'

theorem get_flat_records {records : Ledger}
    (hnd : (records.map Prod.fst).Nodup) {r : String × List String}
    (hr : r ∈ records) : get_ids_by_date records r.1 = r.2 := by
  simp [get_ids_by_date, find?_of_nodup_keys records hnd r hr]

theorem processCohorts_fresh (arch : List String → Nat)
    (h200 : ∀ ids, arch ids = 200) :
    ∀ (cs : List Cohort) (st : EngineState),
    (∀ c ∈ cs, c.2 ≠ [] ∧ ∀ i ∈ c.2, i.captured_day = c.1) →
    (cs.map Prod.fst).Nodup →
    (∀ k ∈ cs.map Prod.fst, k ∉ st.db.map Prod.fst) →
    (processCohorts arch st cs).1.db
      = st.db ++ cs.map (fun c => (c.1, c.2.map (fun i => i.id))) := by
  intro cs
  induction cs with
  | nil =>
      intro st _ _ _
      simp [processCohorts]
  | cons c cs ih =>
      intro st hwf hnd hfresh
      obtain ⟨k, g⟩ := c
      obtain ⟨hne, hday⟩ := hwf _ (List.mem_cons_self _ _)
      obtain ⟨i0, t, rfl⟩ : ∃ i0 t, g = i0 :: t := by
        cases g with
        | nil => exact absurd rfl hne
        | cons i0 t => exact ⟨i0, t, rfl⟩
      have hk_not : k ∉ st.db.map Prod.fst := hfresh k (by simp)
      have hget : get_ids_by_date st.db k = [] := get_eq_nil_of_key_not_mem hk_not
      have hday0 : i0.captured_day = k := hday i0 (by simp)
      have hproc : processCohort arch st (k, i0 :: t)
          = download_media arch st (get_zip_filename st.files k) (i0 :: t) := by
        simp only [processCohort, hget]
        simp
      have hdm : (download_media arch st (get_zip_filename st.files k) (i0 :: t)).1
          = ⟨st.db ++ [(k, (i0 :: t).map (fun i => i.id))],
             get_zip_filename st.files k :: st.files⟩ := by
        simp [download_media, h200, hday0, insert_ids_by_date,
          find?_none_of_key_not_mem hk_not]
      have hnd2 : k ∉ cs.map Prod.fst ∧ (cs.map Prod.fst).Nodup := by
        rw [List.map_cons, List.nodup_cons] at hnd
        exact hnd
      simp only [processCohorts, hproc, hdm]
      rw [ih ⟨st.db ++ [(k, (i0 :: t).map (fun i => i.id))],
            get_zip_filename st.files k :: st.files⟩
          (fun c' hc' => hwf c' (List.mem_cons_of_mem _ hc'))
          hnd2.2 ?fresh]
      · simp
      case fresh =>
        intro k' hk'
        simp only [List.map_append, List.mem_append]
        rintro (hin | hin)
        · exact hfresh k' (List.mem_cons_of_mem _ hk') hin
        · have hk'k : k' = k := by simpa using hin
          exact hnd2.1 (hk'k ▸ hk')

theorem run_pages_fresh (arch : List String → Nat)
    (h200 : ∀ ids, arch ids = 200) :
    ∀ (pages : List (List RawItem)) (st : EngineState),
    pages.Pairwise (fun p q =>
      ∀ d ∈ (build_needed p).map (fun i => i.captured_day),
        d ∉ (build_needed q).map (fun i => i.captured_day)) →
    (∀ p ∈ pages, ∀ d ∈ (build_needed p).map (fun i => i.captured_day),
        d ∉ st.db.map Prod.fst) →
    (run_pages arch st pages).1.db
      = st.db ++ (pages.map (fun m =>
          (grouped_data m).map (fun c => (c.1, c.2.map (fun i => i.id))))).flatten := by
  intro pages
  induction pages with
  | nil =>
      intro st _ _
      simp [run_pages]
  | cons m ms ih =>
      intro st hdisj hfresh
      obtain ⟨hd_m, hdisj'⟩ := List.pairwise_cons.mp hdisj
      have hwf : ∀ c ∈ grouped_data m, c.2 ≠ [] ∧ ∀ i ∈ c.2, i.captured_day = c.1 := by
        intro c hc
        obtain ⟨k, g⟩ := c
        obtain ⟨hne, hall⟩ := groupRuns_wf _ k g hc
        exact ⟨hne, fun i hi => (hall i hi).1⟩
      have hnd : ((grouped_data m).map Prod.fst).Nodup :=
        groupRuns_keys_nodup _ (daySorted_sortByDay _)
      have hfr : ∀ k ∈ (grouped_data m).map Prod.fst, k ∉ st.db.map Prod.fst :=
        fun k hk => hfresh m (by simp) k (grouped_keys_sub m k hk)
      have hdb1 : (download_by_date arch st m).1.db
          = st.db ++ (grouped_data m).map (fun c => (c.1, c.2.map (fun i => i.id))) :=
        processCohorts_fresh arch h200 (grouped_data m) st hwf hnd hfr
      simp only [run_pages]
      rw [ih (download_by_date arch st m).1 hdisj' ?fresh]
      · rw [hdb1]
        simp [List.append_assoc]
      case fresh =>
        intro p hp d hd
        rw [hdb1]
        simp only [List.map_append, List.mem_append]
        rintro (hin | hin)
        · exact hfresh p (List.mem_cons_of_mem _ hp) d hd hin
        · have hdm : d ∈ (grouped_data m).map Prod.fst := by
            simpa [List.map_map, Function.comp] using hin
          exact hd_m p hp d (grouped_keys_sub m d hdm) hd

theorem run1_keys_nodup (pages : List (List RawItem))
    (hdisj : pages.Pairwise (fun p q =>
      ∀ d ∈ (build_needed p).map (fun i => i.captured_day),
        d ∉ (build_needed q).map (fun i => i.captured_day))) :
    (((pages.map (fun m =>
        (grouped_data m).map (fun c => (c.1, c.2.map (fun i => i.id))))).flatten).map
        Prod.fst).Nodup := by
  rw [List.map_flatten, List.nodup_flatten]
  constructor
  · intro l hl
    rw [List.mem_map] at hl
    obtain ⟨l', hl', rfl⟩ := hl
    rw [List.mem_map] at hl'
    obtain ⟨m, _, rfl⟩ := hl'
    simpa [List.map_map, Function.comp] using
      groupRuns_keys_nodup _ (daySorted_sortByDay (build_needed m))
  · rw [List.map_map, List.pairwise_map]
    refine hdisj.imp ?_
    intro p q hpq
    intro a hap haq
    have hap' : a ∈ (grouped_data p).map Prod.fst := by
      simpa [List.map_map, Function.comp] using hap
    have haq' : a ∈ (grouped_data q).map Prod.fst := by
      simpa [List.map_map, Function.comp] using haq
    exact hpq a (grouped_keys_sub p a hap') (grouped_keys_sub q a haq')

theorem run1_lookup (arch : List String → Nat) (h200 : ∀ ids, arch ids = 200)
    (pages : List (List RawItem)) (files0 : List String)
    (hdisj : pages.Pairwise (fun p q =>
      ∀ d ∈ (build_needed p).map (fun i => i.captured_day),
        d ∉ (build_needed q).map (fun i => i.captured_day))) :
    ∀ p ∈ pages, ∀ c ∈ grouped_data p,
      get_ids_by_date (run_pages arch ⟨[], files0⟩ pages).1.db c.1
        = c.2.map (fun i => i.id) := by
  intro p hp c hc
  rw [run_pages_fresh arch h200 pages ⟨[], files0⟩ hdisj (by simp), List.nil_append]
  have hmem : (c.1, c.2.map (fun i => i.id)) ∈ (pages.map (fun m =>
      (grouped_data m).map (fun c => (c.1, c.2.map (fun i => i.id))))).flatten := by
    rw [List.mem_flatten]
    exact ⟨(grouped_data p).map (fun c => (c.1, c.2.map (fun i => i.id))),
      List.mem_map.mpr ⟨p, hp, rfl⟩, List.mem_map.mpr ⟨c, hc, rfl⟩⟩
  exact get_flat_records (run1_keys_nodup pages hdisj) hmem

theorem processCohorts_all_skip (arch : List String → Nat) :
    ∀ (cs : List Cohort) (st : EngineState),
    (∀ c ∈ cs, (get_ids_by_date st.db c.1).length ≠ 0 ∧
        (get_ids_by_date st.db c.1).length = c.2.length) →
    (processCohorts arch st cs).1 = st
    ∧ ∀ e ∈ (processCohorts arch st cs).2, ∃ d z, e = Ev.skip d z := by
  intro cs
  induction cs with
  | nil =>
      intro st _
      exact ⟨rfl, by simp [processCohorts]⟩
  | cons c cs ih =>
      intro st h
      have hc := h c (List.mem_cons_self _ _)
      have hskip : processCohort arch st c
          = (st, [Ev.skip c.1 (get_zip_filename st.files c.1)]) := by
        have hcond : ¬ ((get_ids_by_date st.db c.1).length = 0 ∨
            (get_ids_by_date st.db c.1).length ≠ c.2.length) := by
          push_neg
          exact hc
        simp only [processCohort, if_neg hcond]
      obtain ⟨ih1, ih2⟩ := ih st (fun c' hc' => h c' (List.mem_cons_of_mem _ hc'))
      constructor
      · simp only [processCohorts, hskip]
        exact ih1
      · intro e he
        simp only [processCohorts, hskip] at he
        rcases List.mem_append.mp he with he1 | he2
        · exact ⟨c.1, get_zip_filename st.files c.1, by simpa using he1⟩
        · exact ih2 e he2

theorem run_pages_all_skip (arch : List String → Nat) :
    ∀ (pages : List (List RawItem)) (st : EngineState),
    (∀ p ∈ pages, ∀ c ∈ grouped_data p,
        (get_ids_by_date st.db c.1).length ≠ 0 ∧
        (get_ids_by_date st.db c.1).length = c.2.length) →
    (run_pages arch st pages).1 = st
    ∧ ∀ e ∈ (run_pages arch st pages).2, ∃ d z, e = Ev.skip d z := by
  intro pages
  induction pages with
  | nil =>
      intro st _
      exact ⟨rfl, by simp [run_pages]⟩
  | cons m ms ih =>
      intro st h
      obtain ⟨h1, h2⟩ := processCohorts_all_skip arch (grouped_data m) st
        (h m (List.mem_cons_self _ _))
      obtain ⟨ih1, ih2⟩ := ih st (fun p hp => h p (List.mem_cons_of_mem _ hp))
      constructor
      · simp only [run_pages, download_by_date, h1]
        exact ih1
      · intro e he
        simp only [run_pages, download_by_date, h1] at he
        rcases List.mem_append.mp he with he1 | he2
        · exact h2 e he1
        · exact ih2 e he2

/-- C7 as amended: starting from an empty ledger, with every capture-day
confined to a single page of the listing and every archive fetch
succeeding, a second engine run over the same pages leaves the entire
engine state (ledger included) unchanged and consists solely of skip
outcomes — no archive fetch is issued. -/
theorem idempotent_resync (arch : List String → Nat)
    (h200 : ∀ ids, arch ids = 200)
    (pages : List (List RawItem)) (files0 : List String)
    (hdisj : pages.Pairwise (fun p q =>
      ∀ d ∈ (build_needed p).map (fun i => i.captured_day),
        d ∉ (build_needed q).map (fun i => i.captured_day))) :
    (run_pages arch (run_pages arch ⟨[], files0⟩ pages).1 pages).1
      = (run_pages arch ⟨[], files0⟩ pages).1
    ∧ ∀ e ∈ (run_pages arch (run_pages arch ⟨[], files0⟩ pages).1 pages).2,
        ∃ d z, e = Ev.skip d z := by
  apply run_pages_all_skip
  intro p hp c hc
  rw [run1_lookup arch h200 pages files0 hdisj p hp c hc]
  obtain ⟨k, g⟩ := c
  obtain ⟨hne, _⟩ := groupRuns_wf _ k g hc
  constructor
  · simpa [List.length_eq_zero] using hne
  · simp

/-- Witness for the amended C7: two one-item pages on distinct days, run
twice from an empty ledger. -/
theorem idempotent_resync_witness :
    (run_pages archAll200 (run_pages archAll200 ⟨[], []⟩
        [[sampleA], [sampleD]]).1 [[sampleA], [sampleD]]).1
      = (run_pages archAll200 ⟨[], []⟩ [[sampleA], [sampleD]]).1
    ∧ ∀ e ∈ (run_pages archAll200 (run_pages archAll200 ⟨[], []⟩
        [[sampleA], [sampleD]]).1 [[sampleA], [sampleD]]).2,
        ∃ d z, e = Ev.skip d z :=
  idempotent_resync archAll200 (fun _ => rfl) [[sampleA], [sampleD]] [] (by decide)

/-- Counterexample to C7 as stated: with day 2024-01-05 spanning two pages
(one item on page 1, two items on page 2), the second run against the
unchanged pages issues two archive fetches for that day instead of
skipping every cohort. -/
theorem resync_counterexample :
    fetchReqDays (run_pages archAll200 (run_pages archAll200 ⟨[], []⟩
        [[sampleA], [sampleB, sampleC]]).1 [[sampleA], [sampleB, sampleC]]).2
      = ["2024-01-05", "2024-01-05"] := by
  decide
